import Mathlib

/-!
shadowc: merge of fetched shadow entries and host failover.

A shallow embedding of `src/main.go` (functions `writeShadows`, `getShadows`
and `main`) together with the properties of the line merge, the file write
and the failover loop.
-/

namespace Shadowc

/-- Go strings are byte sequences; a string is the list of its bytes. -/
abbrev Str := List Char

/-! ## The parts of package `strings` used by `writeShadows` -/

/-- Go `strings.HasPrefix(s, pre)`. -/
def HasPrefix (s pre : Str) : Bool := pre.isPrefixOf s

/-- Go `strings.TrimRight(s, cutset)`: drops every trailing byte that occurs in `cutset`. -/
def TrimRight (s cutset : Str) : Str := s.rdropWhile (fun c => decide (c ∈ cutset))

/-- Go `strings.Split(s, sep)` for a one-byte separator (the code splits on a newline):
one more piece than there are separators, so the empty string gives one empty piece. -/
def Split (s : Str) (sep : Char) : List Str := s.splitOn sep

/-- Go `strings.Join(elems, sep)`. -/
def Join (elems : List Str) (sep : Str) : Str := sep.intercalate elems

/-! ## Records -/

/-- Modelled from the spec: the `Shadow` type is declared outside `src/main.go`; the code
only uses its field `User` and its `%s` rendering. The spec's CredentialRecord has an
identity and an ordered sequence of opaque string fields. -/
structure Shadow where
  User : Str
  fields : List Str
  deriving DecidableEq

/-- Modelled from the spec: the `%s` rendering of a `Shadow` (its `String` method, declared
outside `src/main.go`): the identity followed by the separator `:` joined with the fields. -/
def Shadow.String (shadow : Shadow) : Str := shadow.User ++ ':' :: Join shadow.fields [':']

/-- Go `type Shadows`, the sequence of records ranged over by `writeShadows`. -/
abbrev Shadows := List Shadow

/-! ## writeShadows -/

/-- The inner loop of `writeShadows` (lines 77-83): walk the lines from the top; the first
line with the given start is overwritten and the walk stops (`found = true`, result `some`);
if no line matches the result is `none` (`found = false`). -/
def scanLines (start text : Str) : List Str → Option (List Str)
  | [] => none
  | line :: rest =>
    if HasPrefix line start then some (text :: rest)
    else (scanLines start text rest).map (fun rest' => line :: rest')

/-- One iteration of the outer loop of `writeShadows` (lines 75-88). -/
def mergeShadow (lines : List Str) (shadow : Shadow) : List Str :=
  match scanLines (shadow.User ++ [':']) shadow.String lines with
  | some lines' => lines'
  | none => lines ++ [shadow.String]

/-- The outer loop of `writeShadows` (lines 75-88), in the order of the record set. -/
def mergeShadows (lines : List Str) (shadows : Shadows) : List Str :=
  shadows.foldl mergeShadow lines

/-- Line 73: the line sequence read from the file content. -/
def readLines (content : Str) : List Str := Split (TrimRight content ['\n']) '\n'

/-- Line 90: the text handed to `file.WriteString`. -/
def output (content : Str) (shadows : Shadows) : Str :=
  Join (mergeShadows (readLines content) shadows) ['\n'] ++ ['\n']

/-- An open file: its bytes and the read/write offset of the handle. -/
structure File where
  data : Str
  offset : Nat
  deriving DecidableEq

/-- The file system: the content of each existing path. -/
abbrev FS := Str → Option Str

/-- Go `os.OpenFile(path, os.O_RDWR, 0600)`: no creation, no truncation, offset zero. -/
def OpenFile (fs : FS) (path : Str) : Except Str File :=
  match fs path with
  | some data => .ok { data := data, offset := 0 }
  | none => .error ("open ".toList ++ path ++ ": no such file or directory".toList)

/-- Go `ioutil.ReadAll(file)`: the bytes from the offset to the end; the offset moves
to the end of the file. -/
def File.ReadAll (file : File) : Str × File :=
  (file.data.drop file.offset, { file with offset := max file.offset file.data.length })

/-- Go `file.WriteString(s)`: the bytes are written at the offset, over what was there, and
the offset moves past them. -/
def File.WriteString (file : File) (s : Str) : File :=
  { data := file.data.take file.offset ++ s ++ file.data.drop (file.offset + s.length)
    offset := file.offset + s.length }

/-- Go `writeShadows` (lines 61-93) over a file system in which reads and writes of an
open file succeed: the returned error and the file system afterwards. -/
def writeShadows (fs : FS) (shadows : Shadows) (shadowFilepath : Str) : Option Str × FS :=
  match OpenFile fs shadowFilepath with
  | .error err => (some err, fs)
  | .ok file =>
    let (content, file) := file.ReadAll
    let lines := Split (TrimRight content ['\n']) '\n'
    let lines := shadows.foldl mergeShadow lines
    let file := file.WriteString (Join lines ['\n'] ++ ['\n'])
    (none, Function.update fs shadowFilepath (some file.data))

/-! ## getShadows -/

/-- Go `x509.Certificate`, identified by its raw bytes. -/
structure Certificate where
  Raw : Str
  deriving DecidableEq

/-- Go `x509.CertPool`: the certificates held by the pool. -/
structure CertPool where
  certs : List Certificate
  deriving DecidableEq

/-- Go `x509.NewCertPool()`: an empty pool. -/
def NewCertPool : CertPool := ⟨[]⟩

/-- Go `certPool.AddCert(cert)`: adds the certificate unless the pool already holds it. -/
def CertPool.AddCert (pool : CertPool) (cert : Certificate) : CertPool :=
  if cert ∈ pool.certs then pool else ⟨pool.certs ++ [cert]⟩

/-- Go `tls.Config`, of which the code sets `RootCAs`; `none` is Go's nil, for which TLS
falls back to the root set of the host. -/
structure Config where
  RootCAs : Option CertPool
  deriving DecidableEq

/-- Go `http.Transport`, of which the code sets `TLSClientConfig`. -/
structure Transport where
  TLSClientConfig : Config
  deriving DecidableEq

/-- Go `http.Client`, of which the code sets `Transport`. -/
structure Client where
  Transport : Transport
  deriving DecidableEq

/-- Modelled from the spec: the repository type and `NewKeyRepository` are declared outside
`src/main.go`; a repository is one server address together with the HTTP client handed to
its constructor (the spec's DistributionClient for one address and one trust anchor). -/
structure KeyRepository where
  addr : Str
  resource : Client
  deriving DecidableEq

/-- Modelled from the spec: see `KeyRepository`; the error result is dropped by the code. -/
def NewKeyRepository (addr : Str) (resource : Client) : KeyRepository := ⟨addr, resource⟩

/-- What a run can observe of the world outside `src/main.go`. -/
structure Env where
  /-- The files of the host. -/
  fs : FS
  /-- Go `filepath.Dir`. -/
  Dir : Str → Str
  /-- Go `pem.Decode`: the bytes of the first PEM block and the rest of the input, or
  `none` when no block is found. -/
  Decode : Str → Option (Str × Str)
  /-- Go `x509.ParseCertificate`. -/
  ParseCertificate : Str → Except Str Certificate
  /-- Modelled from the spec: `repo.GetShadows(users)` is declared outside `src/main.go`;
  it is one request to one server (the spec's DistributionClient.fetch) and its outcome is
  given per request: the first argument counts the requests of the run from zero. -/
  GetShadows : Nat → KeyRepository → List Str → Except Str Shadows

/-- What a run does that can be seen from outside. -/
inductive Event
  /-- One `repo.GetShadows(users)` request. -/
  | GetShadows (repo : KeyRepository) (users : List Str)
  /-- The `log.Printf` of line 133 for a failing host. -/
  | Printf (addr err : Str)
  /-- One call of `writeShadows`. -/
  | writeShadows (shadows : Shadows) (shadowFilepath : Str)
  /-- Go `log.Fatalln`: the message is logged and the process exits. -/
  | Fatalln (msg : Str)
  deriving DecidableEq

/-- Go `ioutil.ReadFile`. -/
def ReadFile (fs : FS) (path : Str) : Except Str Str :=
  match fs path with
  | some data => .ok data
  | none => .error ("open ".toList ++ path ++ ": no such file or directory".toList)

/-- Lines 115-124: the pool holding the certificate and the HTTP client built on it. -/
def resource (certificate : Certificate) : Client :=
  let certPool := NewCertPool.AddCert certificate
  { Transport := { TLSClientConfig := { RootCAs := some certPool } } }

/-- The loop of `getShadows` (lines 126-140) from request number `n` on: the result and the
events in the order they happen. -/
def tryAddrs (env : Env) (users : List Str) (client : Client) :
    Nat → List Str → Except Str Shadows × List Event
  | _, [] => (.error "all shadowd hosts return errors".toList, [])
  | n, addr :: addrs =>
    let repo := NewKeyRepository addr client
    match env.GetShadows n repo users with
    | .ok shadows => (.ok shadows, [Event.GetShadows repo users])
    | .error err =>
      let rest := tryAddrs env users client (n + 1) addrs
      (rest.1, Event.GetShadows repo users :: Event.Printf addr err :: rest.2)

/-- Go `getShadows` (lines 95-141): the result and the events. -/
def getShadows (env : Env) (users addrs : List Str) (certificateFilepath : Str) :
    Except Str Shadows × List Event :=
  match ReadFile env.fs certificateFilepath with
  | .error err => (.error err, [])
  | .ok pemData =>
    match env.Decode pemData with
    | none =>
      (.error "%!s(MISSING) is not valid certificate file because PEM data is not found".toList,
        [])
    | some (pemBlock, _) =>
      match env.ParseCertificate pemBlock with
      | .error err => (.error err, [])
      | .ok certificate => tryAddrs env users (resource certificate) 0 addrs

/-- Go `main` (lines 30-59) after the command line is parsed: the events of the run and the
files afterwards. -/
def main (env : Env) (addrs users : List Str) (shadowFilepath certificateFilepath : Str) :
    List Event × FS :=
  let certificateDirectory := env.Dir certificateFilepath
  if (env.fs (certificateDirectory ++ "/key.pem".toList)).isSome then
    ([Event.Fatalln ("Key file SHOULD NOT be located on the client and " ++
        "SHOULD NOT leave shadowd host. " ++
        "Please, generate new certificate pair and " ++
        "replace certificate file on the clients.").toList], env.fs)
  else
    let got := getShadows env users addrs certificateFilepath
    match got.1 with
    | .error err => (got.2 ++ [Event.Fatalln err], env.fs)
    | .ok shadows =>
      let written := writeShadows env.fs shadows shadowFilepath
      match written.1 with
      | some err =>
        (got.2 ++ [Event.writeShadows shadows shadowFilepath, Event.Fatalln err], written.2)
      | none => (got.2 ++ [Event.writeShadows shadows shadowFilepath], written.2)

/-! ## Vocabulary of the statements -/

/-- The addresses a request was sent to, in the order of the requests. -/
def contacted (events : List Event) : List Str :=
  events.filterMap fun
    | Event.GetShadows repo _ => some repo.addr
    | _ => none

/-- Whether `writeShadows` was called. -/
def wrote (events : List Event) : Bool :=
  events.any fun
    | Event.writeShadows _ _ => true
    | _ => false

/-- The first line that starts with `identity:`, if any. -/
def firstLine (identity : Str) (lines : List Str) : Option Str :=
  lines.find? (fun l => HasPrefix l (identity ++ [':']))

/-- The last record of the set that has the given identity, if any. -/
def lastRecord (identity : Str) (shadows : Shadows) : Option Shadow :=
  shadows.reverse.find? (fun r => decide (r.User = identity))

/-- An example world: the certificate file `cert.pem` (in the directory `.`) holds one block,
and of the servers only `B` answers, with one record for root. -/
def exampleEnv : Env where
  fs := fun p => if p = "cert.pem".toList then some "PEM".toList else none
  Dir := fun _ => ".".toList
  Decode := fun data => some (data, [])
  ParseCertificate := fun block => .ok ⟨block⟩
  GetShadows := fun _ repo _ =>
    if repo.addr = "B".toList then .ok [⟨"root".toList, ["y".toList]⟩]
    else .error "connection refused".toList

/-- An example world whose certificate file `cert.pem` (in the directory `.`) holds no PEM
block, and in which no server answers. -/
def noBlockEnv : Env where
  fs := fun p => if p = "cert.pem".toList then some "".toList else none
  Dir := fun _ => ".".toList
  Decode := fun _ => none
  ParseCertificate := fun block => .ok ⟨block⟩
  GetShadows := fun _ _ _ => .error "connection refused".toList

/-! ## The inner loop -/

theorem scanLines_eq_none {start text : Str} {lines : List Str} :
    scanLines start text lines = none ↔ ∀ l ∈ lines, HasPrefix l start = false := by
  induction lines with
  | nil => simp [scanLines]
  | cons line rest ih =>
    by_cases h : HasPrefix line start = true
    · simp [scanLines, h]
    · simp [scanLines, h, ih]

theorem scanLines_length {start text : Str} {lines lines' : List Str}
    (h : scanLines start text lines = some lines') : lines'.length = lines.length := by
  induction lines generalizing lines' with
  | nil => simp [scanLines] at h
  | cons line rest ih =>
    by_cases hp : HasPrefix line start = true
    · simp [scanLines, hp] at h
      subst h
      simp
    · simp [scanLines, hp] at h
      obtain ⟨rest', hr, rfl⟩ := h
      simp [ih hr]

/-- The loop overwrites exactly the first matching index. -/
theorem scanLines_eq_set {start text : Str} {lines : List Str} {k : Nat} {l : Str}
    (hk : lines[k]? = some l) (hm : HasPrefix l start = true)
    (hfirst : ∀ l' ∈ lines.take k, HasPrefix l' start = false) :
    scanLines start text lines = some (lines.set k text) := by
  induction lines generalizing k with
  | nil => simp at hk
  | cons line rest ih =>
    cases k with
    | zero =>
      simp at hk
      subst hk
      simp [scanLines, hm]
    | succ k =>
      have h0 : HasPrefix line start = false := hfirst line (by simp)
      have hk' : rest[k]? = some l := by simpa using hk
      have hrest := ih hk' (fun l' hl => hfirst l' (by simp [hl]))
      simp [scanLines, h0, hrest]

/-- A line that does not match is not touched by the loop. -/
theorem scanLines_getElem? {start text : Str} {lines lines' : List Str}
    (h : scanLines start text lines = some lines') {i : Nat} {l : Str}
    (hi : lines[i]? = some l) (hl : HasPrefix l start = false) : lines'[i]? = some l := by
  induction lines generalizing lines' i with
  | nil => simp [scanLines] at h
  | cons line rest ih =>
    by_cases hp : HasPrefix line start = true
    · simp [scanLines, hp] at h
      subst h
      cases i with
      | zero =>
        simp at hi
        subst hi
        simp [hl] at hp
      | succ i => simpa using hi
    · simp [scanLines, hp] at h
      obtain ⟨rest', hr, rfl⟩ := h
      cases i with
      | zero => simpa using hi
      | succ i =>
        have hi' : rest[i]? = some l := by simpa using hi
        simpa using ih hr hi'

theorem mergeShadow_of_none {lines : List Str} {shadow : Shadow}
    (h : scanLines (shadow.User ++ [':']) shadow.String lines = none) :
    mergeShadow lines shadow = lines ++ [shadow.String] := by
  simp [mergeShadow, h]

theorem mergeShadow_of_some {lines lines' : List Str} {shadow : Shadow}
    (h : scanLines (shadow.User ++ [':']) shadow.String lines = some lines') :
    mergeShadow lines shadow = lines' := by
  simp [mergeShadow, h]

theorem length_le_mergeShadow (lines : List Str) (shadow : Shadow) :
    lines.length ≤ (mergeShadow lines shadow).length := by
  cases h : scanLines (shadow.User ++ [':']) shadow.String lines with
  | none => simp [mergeShadow_of_none h]
  | some lines' => simp [mergeShadow_of_some h, scanLines_length h]

theorem mergeShadow_getElem? {lines : List Str} {shadow : Shadow} {i : Nat} {l : Str}
    (hi : lines[i]? = some l) (hl : HasPrefix l (shadow.User ++ [':']) = false) :
    (mergeShadow lines shadow)[i]? = some l := by
  cases h : scanLines (shadow.User ++ [':']) shadow.String lines with
  | none =>
    rw [mergeShadow_of_none h, List.getElem?_append_left, hi]
    exact (List.getElem?_eq_some.1 hi).1
  | some lines' =>
    rw [mergeShadow_of_some h]
    exact scanLines_getElem? h hi hl

theorem length_le_mergeShadows (lines : List Str) (shadows : Shadows) :
    lines.length ≤ (mergeShadows lines shadows).length := by
  induction shadows generalizing lines with
  | nil => simp [mergeShadows]
  | cons shadow rest ih =>
    exact le_trans (length_le_mergeShadow lines shadow) (ih (mergeShadow lines shadow))

theorem mergeShadows_getElem? {lines : List Str} {shadows : Shadows} {i : Nat} {l : Str}
    (hi : lines[i]? = some l)
    (hl : ∀ shadow ∈ shadows, HasPrefix l (shadow.User ++ [':']) = false) :
    (mergeShadows lines shadows)[i]? = some l := by
  induction shadows generalizing lines with
  | nil => simpa [mergeShadows] using hi
  | cons shadow rest ih =>
    have h1 := mergeShadow_getElem? hi (hl shadow (List.mem_cons_self _ _))
    exact ih h1 (fun s hs => hl s (List.mem_cons_of_mem _ hs))

/-- C1: for every file content and record set, the line sequence written back is at least as
long as the one read, and every line read that starts with `identity:` for no record of the
set is found again at the same index with the same text. -/
theorem writeShadows_preserves_unrelated (content : Str) (shadows : Shadows) :
    (readLines content).length ≤ (mergeShadows (readLines content) shadows).length ∧
    ∀ (i : Nat) (l : Str), (readLines content)[i]? = some l →
      (∀ shadow ∈ shadows, HasPrefix l (shadow.User ++ [':']) = false) →
      (mergeShadows (readLines content) shadows)[i]? = some l :=
  ⟨length_le_mergeShadows _ _, fun _ _ hi hl => mergeShadows_getElem? hi hl⟩

/-- C1 at the content `a:1`, `b:2` and the record `b:9`: line 0 is kept. -/
theorem writeShadows_preserves_unrelated_witness :
    (mergeShadows (readLines "a:1\nb:2\n".toList) [⟨"b".toList, ["9".toList]⟩])[0]?
      = some "a:1".toList :=
  (writeShadows_preserves_unrelated "a:1\nb:2\n".toList [⟨"b".toList, ["9".toList]⟩]).2
    0 "a:1".toList (by decide) (by decide)

/-- C2: when some line starts with `identity:`, merging one record overwrites the first such
line (index `k`) with the serialized record, leaves every other line as it was, and keeps the
number of lines. -/
theorem mergeShadow_replaces_first (lines : List Str) (shadow : Shadow) (k : Nat) (l : Str)
    (hk : lines[k]? = some l) (hm : HasPrefix l (shadow.User ++ [':']) = true)
    (hfirst : ∀ l' ∈ lines.take k, HasPrefix l' (shadow.User ++ [':']) = false) :
    mergeShadow lines shadow = lines.set k shadow.String ∧
    (mergeShadow lines shadow).length = lines.length ∧
    (mergeShadow lines shadow)[k]? = some shadow.String ∧
    ∀ i, i ≠ k → (mergeShadow lines shadow)[i]? = lines[i]? := by
  have hs : scanLines (shadow.User ++ [':']) shadow.String lines
      = some (lines.set k shadow.String) := scanLines_eq_set hk hm hfirst
  have h := mergeShadow_of_some hs
  have hlt : k < lines.length := (List.getElem?_eq_some.1 hk).1
  refine ⟨h, ?_, ?_, ?_⟩
  · simp [h]
  · simp [h, List.getElem?_set_self, hlt]
  · intro i hik
    rw [h, List.getElem?_set_ne (Ne.symm hik)]

/-- C2 at the spec's example: `root:x:1:2` and record root with fields y, 3, 4; a later line
that also starts with `root:` stays. -/
theorem mergeShadow_replaces_first_witness :
    mergeShadow ["bin:*:7".toList, "root:x:1:2".toList, "root:z".toList]
        ⟨"root".toList, ["y".toList, "3".toList, "4".toList]⟩
      = ["bin:*:7".toList, "root:y:3:4".toList, "root:z".toList] :=
  (mergeShadow_replaces_first ["bin:*:7".toList, "root:x:1:2".toList, "root:z".toList]
    ⟨"root".toList, ["y".toList, "3".toList, "4".toList]⟩ 1 "root:x:1:2".toList
    (by decide) (by decide) (by decide)).1

/-- C3: when no line starts with `identity:`, merging one record yields the same lines
followed by one new last line, the serialized record. -/
theorem mergeShadow_appends (lines : List Str) (shadow : Shadow)
    (h : ∀ l ∈ lines, HasPrefix l (shadow.User ++ [':']) = false) :
    mergeShadow lines shadow = lines ++ [shadow.String] :=
  mergeShadow_of_none (scanLines_eq_none.2 h)

/-- C3 at the spec's example: no line starts with `svc:`, record svc with fields a, b. -/
theorem mergeShadow_appends_witness :
    mergeShadow ["root:x:1:2".toList] ⟨"svc".toList, ["a".toList, "b".toList]⟩
      = ["root:x:1:2".toList, "svc:a:b".toList] :=
  mergeShadow_appends ["root:x:1:2".toList] ⟨"svc".toList, ["a".toList, "b".toList]⟩
    (by decide)

/-! ## The write through the handle that was read to its end -/

/-- After the read the offset is at the end of the file, so the text is written behind the
old content. -/
theorem writeShadows_file (fs : FS) (shadows : Shadows) (path content : Str)
    (h : fs path = some content) :
    writeShadows fs shadows path
      = (none, Function.update fs path (some (content ++ output content shadows))) := by
  have hdrop : ∀ n : Nat, content.drop (content.length + n) = [] := fun n =>
    List.drop_eq_nil_of_le (Nat.le_add_right _ _)
  simp [writeShadows, OpenFile, h, File.ReadAll, File.WriteString, output, readLines,
    mergeShadows, hdrop]

/-- C4 (the code at the failing input): a file `shadow` holding `a` and a newline, merged with
the empty record set: `writeShadows` reports no error and the file then holds the old content
followed by the written text, which is not the content with its trailing newlines normalized. -/
theorem writeShadows_empty_set_duplicates :
    (writeShadows (fun p => if p = "shadow".toList then some "a\n".toList else none) []
        "shadow".toList).1 = none ∧
    (writeShadows (fun p => if p = "shadow".toList then some "a\n".toList else none) []
        "shadow".toList).2 "shadow".toList = some "a\na\n".toList ∧
    "a\na\n".toList ≠ TrimRight "a\n".toList ['\n'] ++ ['\n'] := by
  refine ⟨?_, ?_, by decide⟩
  · rw [writeShadows_file _ _ _ "a\n".toList (by simp)]
  · rw [writeShadows_file _ _ _ "a\n".toList (by simp)]
    simp only [Function.update_same]
    decide

/-! ## Identities without a colon -/

theorem hasPrefix_iff {s pre : Str} : HasPrefix s pre = true ↔ pre <+: s := by
  simp [HasPrefix]

theorem hasPrefix_takeWhile {identity l : Str} (hc : ':' ∉ identity)
    (h : HasPrefix l (identity ++ [':']) = true) :
    l.takeWhile (fun c => c != ':') = identity := by
  obtain ⟨t, rfl⟩ := hasPrefix_iff.1 h
  clear h
  induction identity with
  | nil => simp
  | cons c cs ih =>
    have hne : c ≠ ':' := fun e => hc (by simp [e])
    have hcs : ':' ∉ cs := fun e => hc (by simp [e])
    have hb : (c != ':') = true := by simpa using hne
    simp only [List.cons_append, List.takeWhile_cons, hb, if_true]
    exact congrArg (List.cons c) (by simpa using ih hcs)

/-- A line starts with `identity:` for at most one colon-free identity. -/
theorem hasPrefix_unique {a b l : Str} (ha : ':' ∉ a) (hb : ':' ∉ b)
    (h1 : HasPrefix l (a ++ [':']) = true) (h2 : HasPrefix l (b ++ [':']) = true) : a = b := by
  rw [← hasPrefix_takeWhile ha h1, ← hasPrefix_takeWhile hb h2]

theorem hasPrefix_String (shadow : Shadow) :
    HasPrefix shadow.String (shadow.User ++ [':']) = true := by
  rw [hasPrefix_iff]
  exact ⟨Join shadow.fields [':'], by simp [Shadow.String]⟩

theorem hasPrefix_String_ne {shadow : Shadow} {identity : Str} (hs : ':' ∉ shadow.User)
    (hi : ':' ∉ identity) (hne : shadow.User ≠ identity) :
    HasPrefix shadow.String (identity ++ [':']) = false := by
  by_contra h
  rw [Bool.not_eq_false] at h
  exact hne (hasPrefix_unique hs hi (hasPrefix_String shadow) h)

theorem find?_scanLines_same {start text : Str} {lines lines' : List Str}
    (h : scanLines start text lines = some lines') (ht : HasPrefix text start = true) :
    lines'.find? (fun l => HasPrefix l start) = some text := by
  induction lines generalizing lines' with
  | nil => simp [scanLines] at h
  | cons line rest ih =>
    by_cases hp : HasPrefix line start = true
    · simp [scanLines, hp] at h
      subst h
      simp [List.find?, ht]
    · simp [scanLines, hp] at h
      obtain ⟨rest', hr, rfl⟩ := h
      simp [List.find?, hp, ih hr]

theorem find?_scanLines_other {start other text : Str} {lines lines' : List Str}
    (h : scanLines start text lines = some lines')
    (hd : ∀ l, HasPrefix l start = true → HasPrefix l other = false)
    (ht : HasPrefix text other = false) :
    lines'.find? (fun l => HasPrefix l other) = lines.find? (fun l => HasPrefix l other) := by
  induction lines generalizing lines' with
  | nil => simp [scanLines] at h
  | cons line rest ih =>
    by_cases hp : HasPrefix line start = true
    · simp [scanLines, hp] at h
      subst h
      simp [List.find?, ht, hd line hp]
    · simp [scanLines, hp] at h
      obtain ⟨rest', hr, rfl⟩ := h
      simp [List.find?, ih hr]

theorem find?_eq_none_of_scanLines {start text : Str} {lines : List Str}
    (h : scanLines start text lines = none) :
    lines.find? (fun l => HasPrefix l start) = none := by
  rw [List.find?_eq_none]
  intro l hl
  simp [scanLines_eq_none.1 h l hl]

/-- After a record is merged, the first line of its identity is its serialization. -/
theorem firstLine_mergeShadow_same (lines : List Str) (shadow : Shadow) :
    firstLine shadow.User (mergeShadow lines shadow) = some shadow.String := by
  cases h : scanLines (shadow.User ++ [':']) shadow.String lines with
  | none =>
    rw [mergeShadow_of_none h, firstLine, List.find?_append, find?_eq_none_of_scanLines h]
    simp [List.find?, hasPrefix_String]
  | some lines' =>
    rw [mergeShadow_of_some h]
    exact find?_scanLines_same h (hasPrefix_String shadow)

/-- Merging a record leaves the first line of every other colon-free identity alone. -/
theorem firstLine_mergeShadow_other {lines : List Str} {shadow : Shadow} {identity : Str}
    (hs : ':' ∉ shadow.User) (hi : ':' ∉ identity) (hne : shadow.User ≠ identity) :
    firstLine identity (mergeShadow lines shadow) = firstLine identity lines := by
  have ht := hasPrefix_String_ne hs hi hne
  cases h : scanLines (shadow.User ++ [':']) shadow.String lines with
  | none =>
    rw [mergeShadow_of_none h, firstLine, List.find?_append]
    simp [List.find?, ht, firstLine]
  | some lines' =>
    rw [mergeShadow_of_some h]
    refine find?_scanLines_other h (fun l hl => ?_) ht
    by_contra hc
    rw [Bool.not_eq_false] at hc
    exact hne (hasPrefix_unique hs hi hl hc)

theorem mergeShadows_append_singleton (lines : List Str) (shadows : Shadows) (shadow : Shadow) :
    mergeShadows lines (shadows ++ [shadow]) = mergeShadow (mergeShadows lines shadows) shadow := by
  simp [mergeShadows, List.foldl_append]

theorem lastRecord_append_singleton (identity : Str) (shadows : Shadows) (shadow : Shadow) :
    lastRecord identity (shadows ++ [shadow])
      = if shadow.User = identity then some shadow else lastRecord identity shadows := by
  by_cases h : shadow.User = identity <;> simp [lastRecord, List.find?, h]

/-- The first line of a colon-free identity after the whole record loop. -/
theorem firstLine_mergeShadows (lines : List Str) (shadows : Shadows) (identity : Str)
    (hi : ':' ∉ identity) (hs : ∀ r ∈ shadows, ':' ∉ r.User) :
    firstLine identity (mergeShadows lines shadows)
      = match lastRecord identity shadows with
        | some r => some r.String
        | none => firstLine identity lines := by
  induction shadows using List.reverseRecOn with
  | nil => simp [mergeShadows, lastRecord]
  | append_singleton rest shadow ih =>
    rw [mergeShadows_append_singleton, lastRecord_append_singleton]
    by_cases h : shadow.User = identity
    · subst h
      simp [firstLine_mergeShadow_same]
    · rw [firstLine_mergeShadow_other (hs shadow (by simp)) hi h, if_neg h]
      exact ih (fun r hr => hs r (by simp [hr]))

theorem lastRecord_isSome {identity : Str} {shadows : Shadows}
    (h : ∃ r ∈ shadows, r.User = identity) :
    ∃ r, lastRecord identity shadows = some r ∧ r ∈ shadows ∧ r.User = identity := by
  obtain ⟨r, hr, hu⟩ := h
  cases hf : lastRecord identity shadows with
  | none =>
    rw [lastRecord, List.find?_eq_none] at hf
    have := hf r (by simpa using hr)
    simp [hu] at this
  | some r' =>
    refine ⟨r', rfl, ?_, ?_⟩
    · have := List.mem_of_find?_eq_some hf
      simpa using this
    · simpa using List.find?_some hf

/-- C10: when no identity of the record set contains a colon, after the merge every record of
the set has a line starting with `identity:`, and the first such line is the serialization of
the last record of the set with that identity. -/
theorem mergeShadows_every_record_present (lines : List Str) (shadows : Shadows)
    (hs : ∀ r ∈ shadows, ':' ∉ r.User) (shadow : Shadow) (hmem : shadow ∈ shadows) :
    ∃ r, lastRecord shadow.User shadows = some r ∧
      (mergeShadows lines shadows).find? (fun l => HasPrefix l (shadow.User ++ [':']))
        = some r.String := by
  obtain ⟨r, hr, -, -⟩ := lastRecord_isSome ⟨shadow, hmem, rfl⟩
  refine ⟨r, hr, ?_⟩
  have h := firstLine_mergeShadows lines shadows shadow.User (hs shadow hmem) hs
  rw [hr] at h
  exact h

/-- C10 at the lines `a:1` and the records `b:2`, `a:3`, `b:4`: the first line starting with
`b:` is the serialization of the last record named b. -/
theorem mergeShadows_every_record_present_witness :
    ∃ r, lastRecord "b".toList
        [⟨"b".toList, ["2".toList]⟩, ⟨"a".toList, ["3".toList]⟩, ⟨"b".toList, ["4".toList]⟩]
        = some r ∧
      (mergeShadows ["a:1".toList]
        [⟨"b".toList, ["2".toList]⟩, ⟨"a".toList, ["3".toList]⟩, ⟨"b".toList, ["4".toList]⟩]).find?
          (fun l => HasPrefix l ("b".toList ++ [':'])) = some r.String :=
  mergeShadows_every_record_present ["a:1".toList]
    [⟨"b".toList, ["2".toList]⟩, ⟨"a".toList, ["3".toList]⟩, ⟨"b".toList, ["4".toList]⟩]
    (by decide) ⟨"b".toList, ["2".toList]⟩ (by decide)

/-! ## Merging the same set again -/

theorem scanLines_again {start text text' : Str} {lines lines' : List Str}
    (h : scanLines start text lines = some lines') (ht : HasPrefix text start = true) :
    scanLines start text' lines' = scanLines start text' lines := by
  induction lines generalizing lines' with
  | nil => simp [scanLines] at h
  | cons line rest ih =>
    by_cases hp : HasPrefix line start = true
    · simp [scanLines, hp] at h
      subst h
      simp [scanLines, hp, ht]
    · simp [scanLines, hp] at h
      obtain ⟨rest', hr, rfl⟩ := h
      simp [scanLines, hp, ih hr]

theorem scanLines_appended {start text text' : Str} {lines : List Str}
    (h : scanLines start text lines = none) (ht : HasPrefix text start = true) :
    scanLines start text' (lines ++ [text]) = some (lines ++ [text']) := by
  induction lines with
  | nil => simp [scanLines, ht]
  | cons line rest ih =>
    by_cases hp : HasPrefix line start = true
    · simp [scanLines, hp] at h
    · simp [scanLines, hp] at h
      simp [scanLines, hp, ih h]

/-- Two records with the same identity in a row: the second one decides. -/
theorem mergeShadow_absorb (lines : List Str) {r r' : Shadow} (hu : r.User = r'.User) :
    mergeShadow (mergeShadow lines r) r' = mergeShadow lines r' := by
  have ht : HasPrefix r.String (r'.User ++ [':']) = true := hu ▸ hasPrefix_String r
  cases h : scanLines (r.User ++ [':']) r.String lines with
  | none =>
    rw [mergeShadow_of_none h]
    have h' : scanLines (r'.User ++ [':']) r'.String lines = none := by
      rw [scanLines_eq_none] at h ⊢
      exact hu ▸ h
    rw [mergeShadow_of_none h']
    exact mergeShadow_of_some (scanLines_appended (hu ▸ h) ht)
  | some lines' =>
    rw [mergeShadow_of_some h]
    have h2 : scanLines (r'.User ++ [':']) r'.String lines'
        = scanLines (r'.User ++ [':']) r'.String lines := scanLines_again (hu ▸ h) ht
    simp only [mergeShadow, h2]
    cases h3 : scanLines (r'.User ++ [':']) r'.String lines with
    | none =>
      rw [scanLines_eq_none] at h3
      have h4 : scanLines (r.User ++ [':']) r.String lines = none := by
        rw [scanLines_eq_none]
        exact hu ▸ h3
      rw [h4] at h
      cases h
    | some l3 => rfl

theorem scanLines_comm {p q t u : Str}
    (hd : ∀ l, HasPrefix l p = true → HasPrefix l q = false)
    (ht : HasPrefix t q = false) (hu : HasPrefix u p = false) (lines : List Str) :
    (scanLines q u lines).bind (scanLines p t) = (scanLines p t lines).bind (scanLines q u) := by
  induction lines with
  | nil => simp [scanLines]
  | cons line rest ih =>
    by_cases hp : HasPrefix line p = true
    · have hq := hd line hp
      cases h1 : scanLines q u rest <;> simp [scanLines, hp, hq, ht, h1]
    · by_cases hq : HasPrefix line q = true
      · cases h2 : scanLines p t rest <;> simp [scanLines, hp, hq, hu, h2]
      · rw [Bool.not_eq_true] at hp hq
        cases h1 : scanLines q u rest with
        | none =>
          cases h2 : scanLines p t rest with
          | none => simp [scanLines, hp, hq, h1, h2]
          | some l2 =>
            rw [h1, h2] at ih
            have ih' : scanLines q u l2 = none := by simpa using ih.symm
            simp [scanLines, hp, hq, h1, h2, ih']
        | some l1 =>
          cases h2 : scanLines p t rest with
          | none =>
            rw [h1, h2] at ih
            have ih' : scanLines p t l1 = none := by simpa using ih
            simp [scanLines, hp, hq, h1, h2, ih']
          | some l2 =>
            rw [h1, h2] at ih
            have ih' : scanLines p t l1 = scanLines q u l2 := by simpa using ih
            simp [scanLines, hp, hq, h1, h2, ih']

theorem scanLines_isSome {identity : Str} {lines : List Str}
    (h : firstLine identity lines ≠ none) (text : Str) :
    ∃ lines', scanLines (identity ++ [':']) text lines = some lines' := by
  cases hs : scanLines (identity ++ [':']) text lines with
  | none => exact absurd (find?_eq_none_of_scanLines hs) h
  | some lines' => exact ⟨lines', rfl⟩

theorem firstLine_mergeShadow_ne_none {lines : List Str} {shadow : Shadow} {identity : Str}
    (hs : ':' ∉ shadow.User) (hi : ':' ∉ identity) (h : firstLine identity lines ≠ none) :
    firstLine identity (mergeShadow lines shadow) ≠ none := by
  by_cases hu : shadow.User = identity
  · subst hu
    simp [firstLine_mergeShadow_same]
  · rwa [firstLine_mergeShadow_other hs hi hu]

/-- Two records with different colon-free identities that both have a line commute. -/
theorem mergeShadow_comm {lines : List Str} {r r' : Shadow} (hr : ':' ∉ r.User)
    (hr' : ':' ∉ r'.User) (hne : r.User ≠ r'.User) (hp : firstLine r.User lines ≠ none)
    (hp' : firstLine r'.User lines ≠ none) :
    mergeShadow (mergeShadow lines r) r' = mergeShadow (mergeShadow lines r') r := by
  obtain ⟨l1, h1⟩ := scanLines_isSome hp r.String
  obtain ⟨l2, h2⟩ := scanLines_isSome hp' r'.String
  have hp1 : firstLine r'.User (mergeShadow lines r) ≠ none :=
    firstLine_mergeShadow_ne_none hr hr' hp'
  have hp2 : firstLine r.User (mergeShadow lines r') ≠ none :=
    firstLine_mergeShadow_ne_none hr' hr hp
  rw [mergeShadow_of_some h1] at hp1 ⊢
  rw [mergeShadow_of_some h2] at hp2 ⊢
  obtain ⟨l12, h12⟩ := scanLines_isSome hp1 r'.String
  obtain ⟨l21, h21⟩ := scanLines_isSome hp2 r.String
  rw [mergeShadow_of_some h12, mergeShadow_of_some h21]
  have hc := scanLines_comm (p := r.User ++ [':']) (q := r'.User ++ [':'])
    (t := r.String) (u := r'.String) ?_ ?_ ?_ lines
  · rw [h1, h2] at hc
    simp only [Option.some_bind] at hc
    rw [h12, h21] at hc
    exact (Option.some.inj hc).symm
  · intro l hl
    by_contra hc
    rw [Bool.not_eq_false] at hc
    exact hne (hasPrefix_unique hr hr' hl hc)
  · exact hasPrefix_String_ne hr hr' hne
  · exact hasPrefix_String_ne hr' hr (Ne.symm hne)

theorem mergeShadows_cons (lines : List Str) (shadow : Shadow) (shadows : Shadows) :
    mergeShadows lines (shadow :: shadows) = mergeShadows (mergeShadow lines shadow) shadows :=
  rfl

/-- A record whose identity comes again later in the set has no effect on lines that already
hold a line for every identity of the set. -/
theorem mergeShadows_absorb (shadows : Shadows) (lines : List Str) (r : Shadow)
    (hr : ':' ∉ r.User) (hs : ∀ s ∈ shadows, ':' ∉ s.User)
    (hp : firstLine r.User lines ≠ none)
    (hps : ∀ s ∈ shadows, firstLine s.User lines ≠ none)
    (hlater : ∃ s ∈ shadows, s.User = r.User) :
    mergeShadows (mergeShadow lines r) shadows = mergeShadows lines shadows := by
  induction shadows generalizing lines with
  | nil => simp at hlater
  | cons r' rest ih =>
    have hr' : ':' ∉ r'.User := hs r' (List.mem_cons_self _ _)
    have hp' : firstLine r'.User lines ≠ none := hps r' (List.mem_cons_self _ _)
    rw [mergeShadows_cons, mergeShadows_cons]
    by_cases hu : r.User = r'.User
    · rw [mergeShadow_absorb lines hu]
    · rw [mergeShadow_comm hr hr' hu hp hp']
      refine ih (mergeShadow lines r') (fun s h => hs s (List.mem_cons_of_mem _ h))
        (firstLine_mergeShadow_ne_none hr' hr hp)
        (fun s h => firstLine_mergeShadow_ne_none hr' (hs s (List.mem_cons_of_mem _ h))
          (hps s (List.mem_cons_of_mem _ h))) ?_
      obtain ⟨s, hmem, hsu⟩ := hlater
      rcases List.mem_cons.1 hmem with rfl | hmem
      · exact absurd hsu.symm hu
      · exact ⟨s, hmem, hsu⟩

theorem scanLines_self {start text : Str} {lines : List Str}
    (h : lines.find? (fun l => HasPrefix l start) = some text) :
    scanLines start text lines = some lines := by
  induction lines with
  | nil => simp at h
  | cons line rest ih =>
    by_cases hp : HasPrefix line start = true
    · simp [List.find?, hp] at h
      subst h
      simp [scanLines, hp]
    · simp [List.find?, hp] at h
      simp [scanLines, hp, ih h]

/-- A record whose serialization is already the first line of its identity changes nothing. -/
theorem mergeShadow_self {lines : List Str} {shadow : Shadow}
    (h : firstLine shadow.User lines = some shadow.String) : mergeShadow lines shadow = lines :=
  mergeShadow_of_some (scanLines_self h)

theorem lastRecord_eq_none {identity : Str} {shadows : Shadows}
    (h : ¬ ∃ s ∈ shadows, s.User = identity) : lastRecord identity shadows = none := by
  rw [lastRecord, List.find?_eq_none]
  intro s hs
  simp only [decide_eq_true_eq]
  exact fun hu => h ⟨s, by simpa using hs, hu⟩

theorem firstLine_mergeShadows_ne_none (lines : List Str) (shadows : Shadows)
    (hs : ∀ r ∈ shadows, ':' ∉ r.User) (s : Shadow) (hmem : s ∈ shadows) :
    firstLine s.User (mergeShadows lines shadows) ≠ none := by
  obtain ⟨r, hr, -, -⟩ := lastRecord_isSome ⟨s, hmem, rfl⟩
  rw [firstLine_mergeShadows lines shadows s.User (hs s hmem) hs, hr]
  simp

/-- The record loop is idempotent on lines when no identity contains a colon. -/
theorem mergeShadows_idem (shadows : Shadows) (lines : List Str)
    (hs : ∀ r ∈ shadows, ':' ∉ r.User) :
    mergeShadows (mergeShadows lines shadows) shadows = mergeShadows lines shadows := by
  induction shadows generalizing lines with
  | nil => rfl
  | cons r rest ih =>
    have hr : ':' ∉ r.User := hs r (List.mem_cons_self _ _)
    have hrest : ∀ s ∈ rest, ':' ∉ s.User := fun s h => hs s (List.mem_cons_of_mem _ h)
    have hall := firstLine_mergeShadows_ne_none lines (r :: rest) hs
    rw [mergeShadows_cons] at hall ⊢
    rw [mergeShadows_cons]
    by_cases hlater : ∃ s ∈ rest, s.User = r.User
    · rw [mergeShadows_absorb rest _ r hr hrest (hall r (List.mem_cons_self _ _))
        (fun s h => hall s (List.mem_cons_of_mem _ h)) hlater]
      exact ih (mergeShadow lines r) hrest
    · have hfirst : firstLine r.User (mergeShadows (mergeShadow lines r) rest)
          = some r.String := by
        rw [firstLine_mergeShadows _ rest r.User hr hrest, lastRecord_eq_none hlater]
        exact firstLine_mergeShadow_same lines r
      rw [mergeShadow_self hfirst]
      exact ih (mergeShadow lines r) hrest

/-! ## From lines to text and back -/

theorem join_singleton (l sep : Str) : Join [l] sep = l := by
  simp [Join, List.intercalate]

theorem join_cons_cons (l l' : Str) (rest : List Str) (sep : Str) :
    Join (l :: l' :: rest) sep = l ++ sep ++ Join (l' :: rest) sep := by
  simp [Join, List.intercalate]

theorem join_split (s : Str) (sep : Char) : Join (Split s sep) [sep] = s :=
  List.intercalate_splitOn s sep

theorem split_ne_nil (s : Str) (sep : Char) : Split s sep ≠ [] :=
  List.splitOnP_ne_nil _ _

theorem not_mem_of_mem_splitOnP (p : Char → Bool) (s : Str) :
    ∀ l ∈ s.splitOnP p, ∀ c ∈ l, p c = false := by
  induction s with
  | nil => simp
  | cons a s ih =>
    rw [List.splitOnP_cons]
    by_cases ha : p a = true
    · simp only [ha, if_true]
      intro l hl
      rcases List.mem_cons.1 hl with rfl | hl
      · simp
      · exact ih l hl
    · simp only [ha]
      rw [Bool.not_eq_true] at ha
      cases hsp : s.splitOnP p with
      | nil => simp
      | cons hd tl =>
        rw [hsp] at ih
        intro l hl
        simp only [List.modifyHead_cons, List.mem_cons, Bool.false_eq_true, if_false] at hl
        rcases hl with rfl | hl
        · intro c hc
          rcases List.mem_cons.1 hc with rfl | hc
          · exact ha
          · exact ih hd (List.mem_cons_self _ _) c hc
        · exact ih l (List.mem_cons_of_mem _ hl)

/-- No piece of a split contains the separator. -/
theorem not_mem_of_mem_split {s : Str} {sep : Char} {l : Str} (h : l ∈ Split s sep) :
    sep ∉ l := by
  intro hc
  have := not_mem_of_mem_splitOnP (fun c => c == sep) s l h sep hc
  simp at this

theorem split_join {lines : List Str} {sep : Char} (hne : lines ≠ [])
    (h : ∀ l ∈ lines, sep ∉ l) : Split (Join lines [sep]) sep = lines :=
  List.splitOn_intercalate lines sep h hne

theorem trimRight_getLast? (s : Str) : (TrimRight s ['\n']).getLast? ≠ some '\n' := by
  intro h
  have hne : List.rdropWhile (fun c => decide (c ∈ ['\n'])) s ≠ [] := by
    intro h0
    rw [TrimRight, h0] at h
    simp at h
  have hn := List.rdropWhile_last_not (fun c => decide (c ∈ ['\n'])) s hne
  rw [TrimRight, List.getLast?_eq_getLast _ hne] at h
  rw [Option.some.inj h] at hn
  simp at hn

theorem trimRight_append_newline {s : Str} (h : s.getLast? ≠ some '\n') :
    TrimRight (s ++ ['\n']) ['\n'] = s := by
  rw [TrimRight, List.rdropWhile_concat_pos _ _ _ (by simp)]
  rcases List.eq_nil_or_concat s with rfl | ⟨s', c, rfl⟩
  · simp
  · rw [List.concat_eq_append] at h ⊢
    have hc : c ≠ '\n' := by simpa using h
    have hp : ¬ (decide (c ∈ ['\n']) = true) := by simpa using hc
    exact List.rdropWhile_concat_neg (fun c => decide (c ∈ ['\n'])) s' c hp

/-- The lines read from any content, joined, do not end with a newline. -/
theorem join_readLines_getLast? (content : Str) :
    (Join (readLines content) ['\n']).getLast? ≠ some '\n' := by
  rw [readLines, join_split]
  exact trimRight_getLast? content

theorem getLast?_append_sep (a b : Str) (c : Char) :
    (a ++ [c] ++ b).getLast? = if b = [] then some c else b.getLast? := by
  by_cases hb : b = []
  · subst hb
    simp
  · rw [if_neg hb, List.getLast?_append_of_ne_nil _ hb]

theorem join_append_singleton (lines : List Str) (l sep : Str) (hne : lines ≠ []) :
    Join (lines ++ [l]) sep = Join lines sep ++ sep ++ l := by
  induction lines with
  | nil => exact absurd rfl hne
  | cons a rest ih =>
    cases rest with
    | nil => simp [Join, List.intercalate]
    | cons b rest =>
      have := ih (by simp)
      simp only [List.cons_append] at this ⊢
      rw [join_cons_cons, this, join_cons_cons]
      simp

/-- The inner loop keeps the joined text from ending with a newline when the new text is not
empty and does not end with one. -/
theorem scanLines_join_getLast? {start text : Str} {lines lines' : List Str}
    (h : scanLines start text lines = some lines') (hne : text ≠ [])
    (ht : text.getLast? ≠ some '\n')
    (hl : (Join lines ['\n']).getLast? ≠ some '\n') :
    Join lines' ['\n'] ≠ [] ∧ (Join lines' ['\n']).getLast? ≠ some '\n' := by
  induction lines generalizing lines' with
  | nil => simp [scanLines] at h
  | cons line rest ih =>
    by_cases hp : HasPrefix line start = true
    · simp [scanLines, hp] at h
      subst h
      cases rest with
      | nil => simpa [join_singleton] using And.intro hne ht
      | cons b rest =>
        rw [join_cons_cons, getLast?_append_sep] at hl ⊢
        exact ⟨by simp, hl⟩
    · simp [scanLines, hp] at h
      obtain ⟨rest', hr, rfl⟩ := h
      cases rest with
      | nil => simp [scanLines] at hr
      | cons b rest =>
        have hlen := scanLines_length hr
        cases rest' with
        | nil => simp at hlen
        | cons b' rest' =>
          rw [join_cons_cons, getLast?_append_sep] at hl ⊢
          refine ⟨by simp, ?_⟩
          by_cases hj : Join (b :: rest) ['\n'] = []
          · simp [hj] at hl
          · rw [if_neg hj] at hl
            obtain ⟨h1, h2⟩ := ih hr hl
            rwa [if_neg h1]

theorem mergeShadow_join_getLast? {lines : List Str} {shadow : Shadow}
    (ht : shadow.String.getLast? ≠ some '\n')
    (hl : (Join lines ['\n']).getLast? ≠ some '\n') :
    (Join (mergeShadow lines shadow) ['\n']).getLast? ≠ some '\n' := by
  have hne : shadow.String ≠ [] := by simp [Shadow.String]
  cases h : scanLines (shadow.User ++ [':']) shadow.String lines with
  | none =>
    rw [mergeShadow_of_none h]
    cases lines with
    | nil => simpa [join_singleton] using ht
    | cons a rest =>
      rw [join_append_singleton _ _ _ (by simp), getLast?_append_sep, if_neg hne]
      exact ht
  | some lines' =>
    rw [mergeShadow_of_some h]
    exact (scanLines_join_getLast? h hne ht hl).2

theorem mergeShadows_join_getLast? {lines : List Str} {shadows : Shadows}
    (ht : ∀ r ∈ shadows, r.String.getLast? ≠ some '\n')
    (hl : (Join lines ['\n']).getLast? ≠ some '\n') :
    (Join (mergeShadows lines shadows) ['\n']).getLast? ≠ some '\n' := by
  induction shadows generalizing lines with
  | nil => exact hl
  | cons r rest ih =>
    rw [mergeShadows_cons]
    exact ih (fun s hs => ht s (List.mem_cons_of_mem _ hs))
      (mergeShadow_join_getLast? (ht r (List.mem_cons_self _ _)) hl)

theorem mem_scanLines {start text : Str} {lines lines' : List Str}
    (h : scanLines start text lines = some lines') {l : Str} (hl : l ∈ lines') :
    l ∈ lines ∨ l = text := by
  induction lines generalizing lines' with
  | nil => simp [scanLines] at h
  | cons line rest ih =>
    by_cases hp : HasPrefix line start = true
    · simp [scanLines, hp] at h
      subst h
      rcases List.mem_cons.1 hl with rfl | hl
      · exact Or.inr rfl
      · exact Or.inl (List.mem_cons_of_mem _ hl)
    · simp [scanLines, hp] at h
      obtain ⟨rest', hr, rfl⟩ := h
      rcases List.mem_cons.1 hl with rfl | hl
      · exact Or.inl (List.mem_cons_self _ _)
      · rcases ih hr hl with h1 | h1
        · exact Or.inl (List.mem_cons_of_mem _ h1)
        · exact Or.inr h1

theorem mem_mergeShadow {lines : List Str} {shadow : Shadow} {l : Str}
    (hl : l ∈ mergeShadow lines shadow) : l ∈ lines ∨ l = shadow.String := by
  cases h : scanLines (shadow.User ++ [':']) shadow.String lines with
  | none =>
    rw [mergeShadow_of_none h] at hl
    simpa using hl
  | some lines' =>
    rw [mergeShadow_of_some h] at hl
    exact mem_scanLines h hl

/-- Every line after the record loop is a line from before or a serialized record. -/
theorem mem_mergeShadows {lines : List Str} {shadows : Shadows} {l : Str}
    (hl : l ∈ mergeShadows lines shadows) : l ∈ lines ∨ ∃ r ∈ shadows, l = r.String := by
  induction shadows generalizing lines with
  | nil => exact Or.inl hl
  | cons r rest ih =>
    rw [mergeShadows_cons] at hl
    rcases ih hl with h1 | ⟨s, hs, h1⟩
    · rcases mem_mergeShadow h1 with h2 | h2
      · exact Or.inl h2
      · exact Or.inr ⟨r, List.mem_cons_self _ _, h2⟩
    · exact Or.inr ⟨s, List.mem_cons_of_mem _ hs, h1⟩

/-- Reading back the written text gives the merged lines, when no serialized record contains
a newline. -/
theorem readLines_output (content : Str) (shadows : Shadows)
    (hnl : ∀ r ∈ shadows, '\n' ∉ r.String) :
    readLines (output content shadows) = mergeShadows (readLines content) shadows := by
  have ht : ∀ r ∈ shadows, r.String.getLast? ≠ some '\n' := fun r hr hc =>
    hnl r hr (List.mem_of_getLast?_eq_some hc)
  have h1 := mergeShadows_join_getLast? ht (join_readLines_getLast? content)
  have h2 : ∀ l ∈ mergeShadows (readLines content) shadows, '\n' ∉ l := by
    intro l hl
    rcases mem_mergeShadows hl with h | ⟨r, hr, rfl⟩
    · exact not_mem_of_mem_split h
    · exact hnl r hr
  have h3 : mergeShadows (readLines content) shadows ≠ [] := by
    intro h0
    have hlen := length_le_mergeShadows (readLines content) shadows
    rw [h0] at hlen
    exact split_ne_nil _ _ (List.length_eq_zero.1 (Nat.le_zero.1 hlen))
  rw [output, readLines, trimRight_append_newline h1, split_join h3 h2]

/-- C5 (as amended): when no identity of the set contains a colon and no serialized record
(identity or field) contains a newline, merging the set into the text written by a first
merge of the same set writes the same text again. -/
theorem output_idempotent (content : Str) (shadows : Shadows)
    (hid : ∀ r ∈ shadows, ':' ∉ r.User) (hnl : ∀ r ∈ shadows, '\n' ∉ r.String) :
    output (output content shadows) shadows = output content shadows := by
  rw [output, readLines_output content shadows hnl, mergeShadows_idem shadows _ hid]
  rfl

/-- C5 at content `x`, records root with fields y, 3 and svc with fields a, b. -/
theorem output_idempotent_witness :
    output (output "x\n".toList
        [⟨"root".toList, ["y".toList, "3".toList]⟩, ⟨"svc".toList, ["a".toList, "b".toList]⟩])
        [⟨"root".toList, ["y".toList, "3".toList]⟩, ⟨"svc".toList, ["a".toList, "b".toList]⟩]
      = output "x\n".toList
        [⟨"root".toList, ["y".toList, "3".toList]⟩, ⟨"svc".toList, ["a".toList, "b".toList]⟩] :=
  output_idempotent "x\n".toList
    [⟨"root".toList, ["y".toList, "3".toList]⟩, ⟨"svc".toList, ["a".toList, "b".toList]⟩]
    (by decide) (by decide)

/-- C5 as stated fails: with the identities `a:b` and `a` the second merge appends a line the
first merge did not leave, and with a newline inside a field the second merge splits the
record's line and leaves its tail behind. -/
theorem output_not_idempotent :
    output (output "x\n".toList [⟨"a:b".toList, ["h".toList]⟩, ⟨"a".toList, ["c".toList]⟩])
        [⟨"a:b".toList, ["h".toList]⟩, ⟨"a".toList, ["c".toList]⟩]
      ≠ output "x\n".toList [⟨"a:b".toList, ["h".toList]⟩, ⟨"a".toList, ["c".toList]⟩] ∧
    output (output "x\n".toList [⟨"u".toList, ["a\nb".toList]⟩])
        [⟨"u".toList, ["a\nb".toList]⟩]
      ≠ output "x\n".toList [⟨"u".toList, ["a\nb".toList]⟩] := by
  constructor <;> decide

/-- C6 (as amended): when no serialized record of the set ends with a newline, the text
written ends with exactly one newline, whatever the file content. -/
theorem output_ends_with_one_newline (content : Str) (shadows : Shadows)
    (ht : ∀ r ∈ shadows, r.String.getLast? ≠ some '\n') :
    (output content shadows).getLast? = some '\n' ∧
    ¬ (['\n', '\n'] <:+ output content shadows) := by
  have h1 := mergeShadows_join_getLast? ht (join_readLines_getLast? content)
  refine ⟨by simp [output], ?_⟩
  rintro ⟨t, hsuf⟩
  apply h1
  have hsplit : (t ++ ['\n']) ++ ['\n']
      = Join (mergeShadows (readLines content) shadows) ['\n'] ++ ['\n'] := by
    simpa [output] using hsuf
  rw [← List.append_cancel_right hsplit]
  simp

/-- C6 (as amended) at contents with zero and with two trailing newlines. -/
theorem output_ends_with_one_newline_witness :
    ((output "a:1".toList [⟨"b".toList, ["2".toList]⟩]).getLast? = some '\n' ∧
      ¬ (['\n', '\n'] <:+ output "a:1".toList [⟨"b".toList, ["2".toList]⟩])) ∧
    ((output "a:1\n\n".toList [⟨"b".toList, ["2".toList]⟩]).getLast? = some '\n' ∧
      ¬ (['\n', '\n'] <:+ output "a:1\n\n".toList [⟨"b".toList, ["2".toList]⟩])) :=
  ⟨output_ends_with_one_newline "a:1".toList [⟨"b".toList, ["2".toList]⟩] (by decide),
   output_ends_with_one_newline "a:1\n\n".toList [⟨"b".toList, ["2".toList]⟩] (by decide)⟩

/-- C6 as stated fails: a record whose last field ends with a newline makes the written text
end with two newlines. -/
theorem output_two_trailing_newlines :
    ¬ ((output "x\n".toList [⟨"u".toList, ["a\n".toList]⟩]).getLast? = some '\n' ∧
      ¬ (['\n', '\n'] <:+ output "x\n".toList [⟨"u".toList, ["a\n".toList]⟩])) := by
  decide

/-! ## The failover loop -/

theorem tryAddrs_first_success (env : Env) (users : List Str) (client : Client)
    (addrs : List Str) (n k : Nat) (addr : Str) (shadows : Shadows)
    (hk : addrs[k]? = some addr)
    (hok : env.GetShadows (n + k) (NewKeyRepository addr client) users = .ok shadows)
    (hfail : ∀ j a, j < k → addrs[j]? = some a →
      (env.GetShadows (n + j) (NewKeyRepository a client) users).toBool = false) :
    (tryAddrs env users client n addrs).1 = .ok shadows ∧
    contacted (tryAddrs env users client n addrs).2 = addrs.take (k + 1) := by
  induction addrs generalizing n k with
  | nil => simp at hk
  | cons a rest ih =>
    cases k with
    | zero =>
      simp at hk
      subst hk
      rw [Nat.add_zero] at hok
      simp only [tryAddrs, hok]
      simp [contacted, NewKeyRepository]
    | succ k =>
      have h0 := hfail 0 a (Nat.succ_pos k) (by simp)
      cases hg : env.GetShadows n (NewKeyRepository a client) users with
      | ok v => simp [hg, Except.toBool] at h0
      | error err =>
        have hk' : rest[k]? = some addr := by simpa using hk
        have hok' : env.GetShadows (n + 1 + k) (NewKeyRepository addr client) users
            = .ok shadows := by
          rw [← hok]
          congr 1
          omega
        have hfail' : ∀ j b, j < k → rest[j]? = some b →
            (env.GetShadows (n + 1 + j) (NewKeyRepository b client) users).toBool = false := by
          intro j b hj hb
          have := hfail (j + 1) b (Nat.succ_lt_succ hj) (by simpa using hb)
          rwa [show n + (j + 1) = n + 1 + j by omega] at this
        obtain ⟨h1, h2⟩ := ih (n + 1) k hk' hok' hfail'
        simp only [tryAddrs, hg, h1, true_and]
        simp only [contacted, List.filterMap_cons, NewKeyRepository, List.take_succ_cons]
        exact congrArg (List.cons a) h2

theorem tryAddrs_all_fail (env : Env) (users : List Str) (client : Client)
    (addrs : List Str) (n : Nat)
    (hfail : ∀ j a, addrs[j]? = some a →
      (env.GetShadows (n + j) (NewKeyRepository a client) users).toBool = false) :
    (tryAddrs env users client n addrs).1 = .error "all shadowd hosts return errors".toList ∧
    contacted (tryAddrs env users client n addrs).2 = addrs := by
  induction addrs generalizing n with
  | nil => simp [tryAddrs, contacted]
  | cons a rest ih =>
    have h0 := hfail 0 a (by simp)
    cases hg : env.GetShadows n (NewKeyRepository a client) users with
    | ok v => simp [hg, Except.toBool] at h0
    | error err =>
      have hfail' : ∀ j b, rest[j]? = some b →
          (env.GetShadows (n + 1 + j) (NewKeyRepository b client) users).toBool = false := by
        intro j b hb
        have := hfail (j + 1) b (by simpa using hb)
        rwa [show n + (j + 1) = n + 1 + j by omega] at this
      obtain ⟨h1, h2⟩ := ih (n + 1) hfail'
      simp only [tryAddrs, hg, h1, true_and]
      simp only [contacted, List.filterMap_cons, NewKeyRepository]
      exact congrArg (List.cons a) h2

theorem tryAddrs_not_wrote (env : Env) (users : List Str) (client : Client)
    (addrs : List Str) (n : Nat) : wrote (tryAddrs env users client n addrs).2 = false := by
  induction addrs generalizing n with
  | nil => simp [tryAddrs, wrote]
  | cons a rest ih =>
    cases hg : env.GetShadows n (NewKeyRepository a client) users with
    | ok v => simp [tryAddrs, hg, wrote]
    | error err =>
      have := ih (n + 1)
      simp only [wrote] at this
      simp [tryAddrs, hg, wrote, this]

theorem tryAddrs_client (env : Env) (users : List Str) (client : Client)
    (addrs : List Str) (n : Nat) (repo : KeyRepository) (us : List Str)
    (h : Event.GetShadows repo us ∈ (tryAddrs env users client n addrs).2) :
    repo.resource = client := by
  induction addrs generalizing n with
  | nil => simp [tryAddrs] at h
  | cons a rest ih =>
    cases hg : env.GetShadows n (NewKeyRepository a client) users with
    | ok v =>
      simp [tryAddrs, hg] at h
      rw [h.1]
      rfl
    | error err =>
      simp [tryAddrs, hg] at h
      rcases h with h | h
      · rw [h.1]
        rfl
      · exact ih (n + 1) h

theorem getShadows_loaded {env : Env} (users addrs : List Str) {path pemData pemBlock rest : Str}
    {certificate : Certificate} (hread : env.fs path = some pemData)
    (hdec : env.Decode pemData = some (pemBlock, rest))
    (hparse : env.ParseCertificate pemBlock = .ok certificate) :
    getShadows env users addrs path = tryAddrs env users (resource certificate) 0 addrs := by
  simp [getShadows, ReadFile, hread, hdec, hparse]

theorem getShadows_not_wrote (env : Env) (users addrs : List Str) (path : Str) :
    wrote (getShadows env users addrs path).2 = false := by
  unfold getShadows
  split
  · simp [wrote]
  · split
    · simp [wrote]
    · split
      · simp [wrote]
      · exact tryAddrs_not_wrote _ _ _ _ _

/-- When `getShadows` returns an error, the run stops there: `writeShadows` is not called and
the files are as before. -/
theorem main_of_error (env : Env) (addrs users : List Str) (shadowFilepath path err : Str)
    (h : (getShadows env users addrs path).1 = .error err) :
    wrote (main env addrs users shadowFilepath path).1 = false ∧
    (main env addrs users shadowFilepath path).2 = env.fs := by
  unfold main
  simp only
  split
  · simp [wrote]
  · rw [h]
    have := getShadows_not_wrote env users addrs path
    simp only [wrote] at this
    simp [wrote, this]

/-- C7: when the certificate loads and `k` is the first index whose request succeeds,
`getShadows` returns the record set of that request, and the addresses contacted are exactly
the first `k + 1` addresses of the list, in list order, each once; none after index `k`. -/
theorem getShadows_failover (env : Env) (users addrs : List Str)
    (path pemData pemBlock rest : Str) (certificate : Certificate)
    (hread : env.fs path = some pemData) (hdec : env.Decode pemData = some (pemBlock, rest))
    (hparse : env.ParseCertificate pemBlock = .ok certificate)
    (k : Nat) (addr : Str) (shadows : Shadows) (hk : addrs[k]? = some addr)
    (hok : env.GetShadows k (NewKeyRepository addr (resource certificate)) users
      = .ok shadows)
    (hfail : ∀ j a, j < k → addrs[j]? = some a →
      (env.GetShadows j (NewKeyRepository a (resource certificate)) users).toBool = false) :
    (getShadows env users addrs path).1 = .ok shadows ∧
    contacted (getShadows env users addrs path).2 = addrs.take (k + 1) := by
  rw [getShadows_loaded users addrs hread hdec hparse]
  refine tryAddrs_first_success env users _ addrs 0 k addr shadows hk ?_ ?_
  · rwa [Nat.zero_add]
  · intro j a hj ha
    rw [Nat.zero_add]
    exact hfail j a hj ha

/-- C7 at the spec's example: of A, B, C the first fails and the second answers; C is not
contacted. -/
theorem getShadows_failover_witness :
    (getShadows exampleEnv ["root".toList] ["A".toList, "B".toList, "C".toList]
        "cert.pem".toList).1 = .ok [⟨"root".toList, ["y".toList]⟩] ∧
    contacted (getShadows exampleEnv ["root".toList] ["A".toList, "B".toList, "C".toList]
        "cert.pem".toList).2 = ["A".toList, "B".toList] :=
  getShadows_failover exampleEnv ["root".toList] ["A".toList, "B".toList, "C".toList]
    "cert.pem".toList "PEM".toList "PEM".toList [] ⟨"PEM".toList⟩ (by decide) rfl rfl
    1 "B".toList [⟨"root".toList, ["y".toList]⟩] (by decide) rfl
    (by
      intro j a hj ha
      obtain rfl : j = 0 := by omega
      obtain rfl : "A".toList = a := by simpa using ha
      decide)

/-- When every request fails, `getShadows` returns an error, whether the certificate loads
or not. -/
theorem getShadows_error_of_all_fail (env : Env) (users addrs : List Str) (path : Str)
    (hfail : ∀ j a client, addrs[j]? = some a →
      (env.GetShadows j (NewKeyRepository a client) users).toBool = false) :
    ∃ err, (getShadows env users addrs path).1 = .error err := by
  unfold getShadows
  split
  · exact ⟨_, rfl⟩
  · split
    · exact ⟨_, rfl⟩
    · split
      · exact ⟨_, rfl⟩
      · refine ⟨_, (tryAddrs_all_fail env users _ addrs 0 ?_).1⟩
        intro j a ha
        rw [Nat.zero_add]
        exact hfail j a _ ha

/-- C8 (as amended): when every request fails (also for an empty address list), `getShadows`
returns an error and no record set, and the run stops without a call of `writeShadows`, the
files being as before; the error is `all shadowd hosts return errors` whenever the certificate
loads. -/
theorem getShadows_all_fail (env : Env) (users addrs : List Str) (shadowFilepath path : Str)
    (hfail : ∀ j a client, addrs[j]? = some a →
      (env.GetShadows j (NewKeyRepository a client) users).toBool = false) :
    (∃ err, (getShadows env users addrs path).1 = .error err) ∧
    wrote (main env addrs users shadowFilepath path).1 = false ∧
    (main env addrs users shadowFilepath path).2 = env.fs ∧
    ∀ pemData pemBlock rest certificate, env.fs path = some pemData →
      env.Decode pemData = some (pemBlock, rest) →
      env.ParseCertificate pemBlock = .ok certificate →
      (getShadows env users addrs path).1
        = .error "all shadowd hosts return errors".toList := by
  obtain ⟨err, herr⟩ := getShadows_error_of_all_fail env users addrs path hfail
  have hmain := main_of_error env addrs users shadowFilepath path err herr
  refine ⟨⟨err, herr⟩, hmain.1, hmain.2, ?_⟩
  intro pemData pemBlock rest certificate hread hdec hparse
  rw [getShadows_loaded users addrs hread hdec hparse]
  refine (tryAddrs_all_fail env users _ addrs 0 ?_).1
  intro j a ha
  rw [Nat.zero_add]
  exact hfail j a _ ha

/-- C8 (as amended) at the addresses A and C, which both refuse, with a certificate that
loads: the all-hosts error, no call of `writeShadows`, the files as before. -/
theorem getShadows_all_fail_witness :
    (getShadows exampleEnv ["root".toList] ["A".toList, "C".toList] "cert.pem".toList).1
      = .error "all shadowd hosts return errors".toList ∧
    wrote (main exampleEnv ["A".toList, "C".toList] ["root".toList] "shadow".toList
      "cert.pem".toList).1 = false ∧
    (main exampleEnv ["A".toList, "C".toList] ["root".toList] "shadow".toList
      "cert.pem".toList).2 = exampleEnv.fs :=
  have h := getShadows_all_fail exampleEnv ["root".toList] ["A".toList, "C".toList]
    "shadow".toList "cert.pem".toList
    (by
      intro j a client ha
      have hmem : a ∈ ["A".toList, "C".toList] := List.getElem?_mem ha
      rcases List.mem_cons.1 hmem with rfl | hmem
      · rfl
      · rcases List.mem_cons.1 hmem with rfl | hmem
        · rfl
        · simp at hmem)
  ⟨h.2.2.2 "PEM".toList "PEM".toList [] ⟨"PEM".toList⟩ (by decide) rfl rfl, h.2.1, h.2.2.1⟩

/-- C8 as stated fails: with the one address A, which refuses every request, and a
certificate file without a PEM block, `getShadows` returns the error of line 105, not
`all shadowd hosts return errors`, and that error is what the run dies with. -/
theorem getShadows_no_block_error :
    (∀ j a client, ["A".toList][j]? = some a →
      (noBlockEnv.GetShadows j (NewKeyRepository a client) ["root".toList]).toBool = false) ∧
    (noBlockEnv.GetShadows 0 (NewKeyRepository "A".toList (resource ⟨[]⟩))
      ["root".toList]).toBool = false ∧
    (getShadows noBlockEnv ["root".toList] ["A".toList] "cert.pem".toList).1
      = .error
        "%!s(MISSING) is not valid certificate file because PEM data is not found".toList ∧
    (getShadows noBlockEnv ["root".toList] ["A".toList] "cert.pem".toList).1
      ≠ .error "all shadowd hosts return errors".toList ∧
    (main noBlockEnv ["A".toList] ["root".toList] "shadow".toList "cert.pem".toList).1
      = [Event.Fatalln
        "%!s(MISSING) is not valid certificate file because PEM data is not found".toList] := by
  refine ⟨fun j a client _ => rfl, rfl, ?_, ?_, ?_⟩
  · simp [getShadows, ReadFile, noBlockEnv]
  · simp [getShadows, ReadFile, noBlockEnv]
  · decide

/-- C9: every request `getShadows` sends is made with a client whose TLS root set is a pool
holding exactly the certificate parsed from the first PEM block of the certificate file (no
nil pool, hence no roots of the host), the same for every address. -/
theorem getShadows_pinned_roots (env : Env) (users addrs : List Str) (path : Str)
    (repo : KeyRepository) (us : List Str)
    (h : Event.GetShadows repo us ∈ (getShadows env users addrs path).2) :
    ∃ pemData pemBlock rest certificate,
      env.fs path = some pemData ∧ env.Decode pemData = some (pemBlock, rest) ∧
      env.ParseCertificate pemBlock = .ok certificate ∧
      repo.resource.Transport.TLSClientConfig.RootCAs = some ⟨[certificate]⟩ := by
  unfold getShadows ReadFile at h
  cases hread : env.fs path with
  | none => simp [hread] at h
  | some pemData =>
    cases hdec : env.Decode pemData with
    | none => simp [hread, hdec] at h
    | some block =>
      obtain ⟨pemBlock, rest⟩ := block
      cases hparse : env.ParseCertificate pemBlock with
      | error err => simp [hread, hdec, hparse] at h
      | ok certificate =>
        simp only [hread, hdec, hparse] at h
        refine ⟨pemData, pemBlock, rest, certificate, rfl, hdec, hparse, ?_⟩
        rw [tryAddrs_client env users _ addrs 0 repo us h]
        simp [resource, NewCertPool, CertPool.AddCert]

/-- C9 at the example world: the request to A is made with the pool holding the one
certificate of the file. -/
theorem getShadows_pinned_roots_witness :
    ∃ pemData pemBlock rest certificate,
      exampleEnv.fs "cert.pem".toList = some pemData ∧
      exampleEnv.Decode pemData = some (pemBlock, rest) ∧
      exampleEnv.ParseCertificate pemBlock = .ok certificate ∧
      (NewKeyRepository "A".toList (resource ⟨"PEM".toList⟩)).resource.Transport.TLSClientConfig.RootCAs
        = some ⟨[certificate]⟩ :=
  getShadows_pinned_roots exampleEnv ["root".toList] ["A".toList, "B".toList, "C".toList]
    "cert.pem".toList (NewKeyRepository "A".toList (resource ⟨"PEM".toList⟩)) ["root".toList]
    (by decide)

end Shadowc
